import Mathlib

/-!
# Verification of the rust-hdl circuit model against its specification

This file gives a shallow embedding, in Lean 4, of the parts of the
rust-hdl repository that the checked claims are about:

* the `Signal` state machine of `rust-hdl-core/src/signal.rs`
  (`update_all`, `connect`, `pos_edge`, `neg_edge`, `new_with_default`);
* the connectivity checker of
  `rust_hdl_lib_core/src/check_connected.rs`;
* the combinational-loop checker of
  `rust_hdl_lib_core/src/check_logic_loops.rs`;
* the one-shot timer widget of `rust_hdl_lib_widgets/src/shot.rs`.

The block-graph data model, the probe (visitor) protocol, `NamedPath`,
the `AtomKind` enumeration, the Verilog IR and the `DFF` register are
declared in repository files that are not part of the source snapshot;
those are modelled from the specification (each such definition carries
a doc comment starting with `Modelled from the spec:`).  Everything
else is translated directly from the Rust source.

Rust `panic!`/`assert!` termination is modelled by `Option`/`none`;
fallible functions returning `Result` are modelled by `Except`.
-/

/-! ## Signals (`rust-hdl-core/src/signal.rs`)

The Rust struct is generic over a direction marker `D` (phantom) and a
synthesizable value type `T`.  The direction does not influence any of
the operations embedded here, so the Lean structure is generic over the
value type only.  The globally unique id produced by the process-wide
atomic counter `get_signal_id` is passed explicitly as a parameter. -/

structure Signal (T : Type) where
  next : T
  val : T
  prev : T
  changed : Bool
  claimed : Bool
  id : Nat
  deriving Repr, DecidableEq

/-- Source `Signal::update_all` (the `Block` impl for `Signal`):
`self.changed = self.val != self.next; if self.changed { self.prev = self.val; self.val = self.next; }` -/
def Signal.update_all [DecidableEq T] (s : Signal T) : Signal T :=
  let changed := decide (s.val ≠ s.next)
  if changed then
    { s with changed := changed, prev := s.val, val := s.next }
  else
    { s with changed := changed }

/-- Source `Signal::connect` (the `Logic` impl for `Signal`):
`assert!(!self.claimed); self.claimed = true;`.
The `assert!` aborts the process when the signal is already claimed;
that abort (a Rust panic, not an error value) is modelled by `none`. -/
def Signal.connect (s : Signal T) : Option (Signal T) :=
  if s.claimed then none else some { s with claimed := true }

/-- A clock is a width-1 signal; `Clock` is a newtype over `bool`
(`rust-hdl-core/src/clock.rs`), embedded as `Bool`. -/
abbrev Clock := Bool

/-- Source `Signal::<In, Clock>::pos_edge`: `self.changed && self.val.0 && !self.prev.0`. -/
def Signal.pos_edge (s : Signal Clock) : Bool :=
  s.changed && s.val && !s.prev

/-- Source `Signal::<In, Clock>::neg_edge`: `self.changed && !self.val.0 && self.prev.0`. -/
def Signal.neg_edge (s : Signal Clock) : Bool :=
  s.changed && !s.val && s.prev

/-- Source `Signal::<Out, T>::new_with_default(init)`: `next` is `T::default()`,
`val` and `prev` are `init`, `changed` is `true`, `claimed` is `false`.
The fresh id from the atomic counter is the explicit `id` argument. -/
def Signal.new_with_default [Inhabited T] (id : Nat) (init : T) : Signal T :=
  { next := default, val := init, prev := init,
    changed := true, claimed := false, id := id }

/-- Source `impl Default for Signal`: every field from `T::default()`, flags false. -/
def Signal.mkDefault [Inhabited T] (id : Nat) : Signal T :=
  { next := default, val := default, prev := default,
    changed := false, claimed := false, id := id }

/-- Modelled from the spec: the derived `connect_all` of a block
(macro-generated code, not in the source snapshot) recursively calls
`Signal::connect` on every driven signal of the graph.  A graph is
modelled as the list of its driven signals; one failing `connect`
aborts the whole call (`assert!` panic, i.e. `none`). -/
def connect_all_sigs [DecidableEq T] : List (Signal T) → Option (List (Signal T))
  | [] => some []
  | s :: rest =>
      match s.connect with
      | none => none
      | some s' =>
          match connect_all_sigs rest with
          | none => none
          | some rest' => some (s' :: rest')

/-! ## Block graph, atoms and the probe protocol

`atom.rs`, `block.rs`, `probe.rs` and `named_path.rs` are not part of
the source snapshot; they are modelled from the specification
(sections 3.2, 3.3 and 4.2). -/

/-- Modelled from the spec: the `AtomKind` enumeration of `atom.rs`
(not in the snapshot).  Spec section 3.2 lists the directions
Input, Output, InOut, Local; constants also appear as atoms.
`check_connected.rs` names `InputParameter` and `InOutParameter`;
`check_logic_loops.rs` names `LocalSignal` and `OutputParameter`. -/
inductive AtomKind where
  | inputParameter
  | outputParameter
  | inOutParameter
  | localSignal
  | constant
  deriving Repr, DecidableEq

/-- The data of `&dyn Atom` that the two checkers consult:
`id()`, `kind()` and `connected()` (the `claimed` flag). -/
structure AtomInfo where
  id : Nat
  kind : AtomKind
  connected : Bool
  deriving Repr, DecidableEq

/-- Type `PathedName` of `check_error.rs`: a dotted scope path plus a name. -/
structure PathedName where
  path : String
  name : String
  deriving Repr, DecidableEq

/-- The error taxonomy (`check_error.rs`, modelled from the spec's
section 4.6; only the kinds exercised by the claims are spelled out,
the remaining kinds are irrelevant to the checkers embedded here). -/
inductive CheckError where
  | openSignal (m : List (Nat × PathedName))
  | logicLoops (l : List PathedName)
  deriving Repr, DecidableEq

/-! ### The Verilog IR consumed by the loop checker

Modelled from the spec (section 3.5): the HDL IR is an
expression/statement tree with literals, signal references, binary
operations, assignments, slice assignments and if/else.  A block's
behavior (`Block::hdl()`) is `Combinatorial(code)` or one of several
non-combinational alternatives (`Synchronous`, wrappers, blackboxes,
empty), which the loop checker treats uniformly (`_ => vec![]`). -/

inductive VerilogExpression where
  | signal (name : String)
  | literal (n : Nat)
  | binop (l r : VerilogExpression)
  deriving Repr, DecidableEq

inductive VerilogStatement where
  | assignment (l r : VerilogExpression)
  | sliceAssignment (base : VerilogExpression) (width : Nat)
      (offset replacement : VerilogExpression)
  | conditional (cond : VerilogExpression)
      (thenB elseB : List VerilogStatement)
  deriving Repr

abbrev VerilogBlock := List VerilogStatement

inductive Verilog where
  | combinatorial (code : VerilogBlock)
  | other
  deriving Repr

/-! Modelled from the spec: the block graph (section 3.3) is a tree
whose interior nodes are blocks (each with an HDL behavior) and whose
leaves are signals (atoms); nested signal interfaces introduce
namespaces.  `Fields` is the ordered list of a block's named members,
in declaration order, exactly as the derived `accept` visits them. -/

mutual
inductive BlockTree where
  | node (hdl : Verilog) (fields : Fields)

inductive Fields where
  | nil
  | atom (name : String) (info : AtomInfo) (rest : Fields)
  | sub (name : String) (t : BlockTree) (rest : Fields)
  | ns (name : String) (inner : Fields) (rest : Fields)
end

/-- Accessor `Block::hdl()` for the modelled tree. -/
def BlockTree.hdl : BlockTree → Verilog
  | .node h _ => h

/-- Modelled from the spec: a probe (section 4.2) is a polymorphic
visitor with the capability set `visit_start_scope`,
`visit_start_namespace`, `visit_atom`, `visit_end_namespace`,
`visit_end_scope`, embedded as a record of state transformers over the
probe's state `σ`.  The scope callbacks also receive the node, as the
Rust trait passes `&dyn Block`. -/
structure Probe (σ : Type) where
  start_scope : String → BlockTree → σ → σ
  start_ns : String → σ → σ
  atom : String → AtomInfo → σ → σ
  end_ns : String → σ → σ
  end_scope : String → BlockTree → σ → σ

/-! Modelled from the spec: the derived `accept` (section 4.2) invokes
`visit_start_scope(name, self)`, visits each named member in order
(atoms via `visit_atom`, sub-blocks recursively, namespaces bracketed
by `visit_start_namespace`/`visit_end_namespace`), then
`visit_end_scope(name, self)`. -/

mutual
def acceptTree (p : Probe σ) (name : String) (t : BlockTree) (s : σ) : σ :=
  match t with
  | .node _ fields =>
      p.end_scope name t (acceptFields p (p.start_scope name t s) fields)

def acceptFields (p : Probe σ) (s : σ) : Fields → σ
  | .nil => s
  | .atom n i rest => acceptFields p (p.atom n i s) rest
  | .sub n t rest => acceptFields p (acceptTree p n t s) rest
  | .ns n inner rest =>
      acceptFields p (p.end_ns n (acceptFields p (p.start_ns n s) inner)) rest
end

/-- Modelled from the spec: `NamedPath::to_string` renders the stack of
scope names as a dotted path (`named_path.rs` is not in the snapshot;
the spec says "dotted scope path"). -/
def dotted : List String → String
  | [] => ""
  | [x] => x
  | x :: y :: rest => x ++ "." ++ dotted (y :: rest)

/-! ## The connectivity checker (`rust_hdl_lib_core/src/check_connected.rs`) -/

/-- The mutable state of the `CheckConnected` probe: a scope path, a
namespace path, and the accumulated failure map (`OpenMap`, a map from
atom id to pathed name, kept here as an insertion-ordered association
list; ids are globally unique, so `HashMap::insert` never overwrites). -/
structure CCState where
  path : List String
  nspace : List String
  failures : List (Nat × PathedName)

/-- Source `CheckConnected::visit_atom`: an atom fails unless it is connected
or it is an Input/InOut parameter sitting in the top-level scope
(`self.path.to_string().eq("uut")`). -/
def ccVisitAtom (name : String) (signal : AtomInfo) (st : CCState) : CCState :=
  let is_top_scope := dotted st.path == "uut"
  let signal_is_connected := signal.connected
  let signal_is_input :=
    [AtomKind.inputParameter, AtomKind.inOutParameter].contains signal.kind
  if !(signal_is_connected || (signal_is_input && is_top_scope)) then
    { st with
      failures := st.failures ++
        [(signal.id,
          { path := dotted st.path
            name := if st.nspace.isEmpty then name
                    else dotted st.nspace ++ "$" ++ name })] }
  else
    st

/-- The `CheckConnected` probe.  `visit_start_scope` pushes the scope
name and resets the namespace; `visit_end_scope` pops the path;
the namespace callbacks push/pop the namespace path (`NamedPath::pop`
on an empty path is a no-op, as `Vec::pop` returns `None`). -/
def ccProbe : Probe CCState :=
  { start_scope := fun name _ st => { st with path := st.path ++ [name], nspace := [] }
    start_ns := fun name st => { st with nspace := st.nspace ++ [name] }
    atom := ccVisitAtom
    end_ns := fun _ st => { st with nspace := st.nspace.dropLast }
    end_scope := fun _ _ st => { st with path := st.path.dropLast } }

/-- Source `check_connected`: run the probe from a default state over
`uut.accept("uut", ..)`; `Ok(())` when no failures accumulated, else
`Err(CheckError::OpenSignal(failures))`. -/
def check_connected (uut : BlockTree) : Except CheckError Unit :=
  let visitor := acceptTree ccProbe "uut" uut ⟨[], [], []⟩
  if visitor.failures.isEmpty then
    Except.ok ()
  else
    Except.error (CheckError.openSignal visitor.failures)

/-! ## The loop checker (`rust_hdl_lib_core/src/check_logic_loops.rs`) -/

/-- The read/write `Mode` of the loop detector. -/
inductive Mode where
  | ignoreMode
  | readMode
  | writeMode
  deriving Repr, DecidableEq

/-- Struct `VerilogLogicLoopDetector`: names written so far (`HashSet<String>`
kept as a membership list), the current mode, and the violations found
(in discovery order). -/
structure LoopDetector where
  local_vars_written : List String
  mode : Mode
  violations : List String
  deriving Repr, DecidableEq

/-- Source `c.replace("$next", "")`: remove every (non-overlapping,
left-to-right) occurrence of the pattern from the string.  Re-stated
on the character list so that it evaluates by kernel reduction. -/
def removeDollarNext : List Char → List Char
  | '$' :: 'n' :: 'e' :: 'x' :: 't' :: rest => removeDollarNext rest
  | c :: rest => c :: removeDollarNext rest
  | [] => []

def stripNext (s : String) : String := ⟨removeDollarNext s.data⟩

/-- Source `VerilogLogicLoopDetector::visit_signal`: strip `$next`; in write
mode record the name as written, in read mode record a violation when
the name has not been written yet, in ignore mode do nothing. -/
def llVisitSignal (d : LoopDetector) (c : String) : LoopDetector :=
  let myname := stripNext c
  match d.mode with
  | .ignoreMode => d
  | .writeMode =>
      if d.local_vars_written.contains myname then d
      else { d with local_vars_written := myname :: d.local_vars_written }
  | .readMode =>
      if !d.local_vars_written.contains myname then
        { d with violations := d.violations ++ [myname] }
      else d

/-! The default traversal of `VerilogVisitor` (`verilog_visitor.rs`,
not in the snapshot) is modelled from the spec: expressions are walked
into their sub-expressions, a statement list is walked in order, and a
conditional visits its condition and then both branches, all without
changing the mode.  The overridden methods `visit_assignment` and
`visit_slice_assignment` are translated from the source: they visit
the right-hand side (and the slice offset) in read mode, then the
left-hand side in write mode, and finally restore the saved mode. -/

def llVisitExpression (d : LoopDetector) : VerilogExpression → LoopDetector
  | .signal c => llVisitSignal d c
  | .literal _ => d
  | .binop l r => llVisitExpression (llVisitExpression d l) r

mutual
def llVisitStatement (d : LoopDetector) : VerilogStatement → LoopDetector
  | .assignment l r =>
      let current_mode := d.mode
      let d := { d with mode := Mode.readMode }
      let d := llVisitExpression d r
      let d := { d with mode := Mode.writeMode }
      let d := llVisitExpression d l
      { d with mode := current_mode }
  | .sliceAssignment base _width offset replacement =>
      let current_mode := d.mode
      let d := { d with mode := Mode.readMode }
      let d := llVisitExpression d offset
      let d := llVisitExpression d replacement
      let d := { d with mode := Mode.writeMode }
      let d := llVisitExpression d base
      { d with mode := current_mode }
  | .conditional cond thenB elseB =>
      let d := llVisitExpression d cond
      let d := llVisitBlock d thenB
      llVisitBlock d elseB

def llVisitBlock (d : LoopDetector) : List VerilogStatement → LoopDetector
  | [] => d
  | s :: rest => llVisitBlock (llVisitStatement d s) rest
end

/-- Source `get_logic_loop_candidates`: for a combinational behavior, run the
detector from its default state (empty written set, `Ignore` mode) and
return its violations; every other behavior yields no candidates. -/
def get_logic_loop_candidates (uut : BlockTree) : List String :=
  match uut.hdl with
  | .combinatorial code =>
      let det := llVisitBlock ⟨[], Mode.ignoreMode, []⟩ code
      if det.violations.isEmpty then [] else det.violations
  | .other => []

/-- The state of the `LocalVars` probe: scope path, a stack of
name sets (`Vec<HashSet<String>>`, innermost scope first here, so that
Rust's `names.last()` is the list head), and the loops found. -/
structure LVState where
  path : List String
  names : List (List String)
  loops : List PathedName

/-- Source `LocalVars::update_loops`: keep every candidate that names a
local/output atom of the innermost scope, pairing it with the dotted
path of that scope. -/
def update_loops (st : LVState) (candidates : List String) : LVState :=
  { st with
    loops := st.loops ++
      (candidates.filter
        (fun c => (st.names.headD []).contains c)).map
        (fun c => { path := dotted st.path, name := c }) }

/-- Source `LocalVars::visit_atom`: record the atom's name in the innermost
name set when its kind is `LocalSignal` or `OutputParameter`. -/
def lvVisitAtom (name : String) (signal : AtomInfo) (st : LVState) : LVState :=
  match signal.kind with
  | .localSignal | .outputParameter =>
      match st.names with
      | [] => st
      | top :: rest =>
          if top.contains name then st
          else { st with names := (name :: top) :: rest }
  | _ => st

/-- The `LocalVars` probe: scopes and namespaces each push the name on
the path and a fresh name set; `visit_end_scope` first runs
`update_loops` on the node's loop candidates, then pops. -/
def lvProbe : Probe LVState :=
  { start_scope := fun name _ st =>
      { st with path := st.path ++ [name], names := [] :: st.names }
    start_ns := fun name st =>
      { st with path := st.path ++ [name], names := [] :: st.names }
    atom := lvVisitAtom
    end_ns := fun _ st =>
      { st with path := st.path.dropLast, names := st.names.tail }
    end_scope := fun _ node st =>
      let st := update_loops st (get_logic_loop_candidates node)
      { st with path := st.path.dropLast, names := st.names.tail } }

/-- Source `check_logic_loops`: run the `LocalVars` probe over
`uut.accept("uut", ..)`; `Ok(())` when no loops were found, else
`Err(CheckError::LogicLoops(loops))`. -/
def check_logic_loops (uut : BlockTree) : Except CheckError Unit :=
  let visitor := acceptTree lvProbe "uut" uut ⟨[], [], []⟩
  if visitor.loops.isEmpty then
    Except.ok ()
  else
    Except.error (CheckError.logicLoops visitor.loops)

/-! ## The one-shot timer (`rust_hdl_lib_widgets/src/shot.rs`)

`Shot<N>` registers two D flip-flops (`counter : DFF<Bits<N>>` and
`state : DFF<Bit>`) plus the `duration` constant, and computes the
combinational outputs `active` and `fired`.  The `DFF` register,
the `dff_setup!` macro, `Constant` and `Bits` are not in the source
snapshot; they are modelled from the spec: a `DFF` is a sequential
element that commits `q := d` on each positive clock edge (spec
sections 3.3/3.4), `dff_setup!(self, clock, counter, state)` feeds the
clock through and defaults each register's `d` to its current `q`, and
`Bits<N>` arithmetic wraps modulo `2^N` (spec section 3.1). -/

/-- The registered state of a `Shot<8>`: the `q` outputs of the
`counter` and `state` flip-flops.  Both DFFs reset to default
(`0` / `false`). -/
structure ShotState where
  counter : Nat
  state : Bool
  deriving Repr, DecidableEq

/-- One positive clock edge of `Shot<8>`: the `d` inputs computed by
`Shot::update` (translated statement by statement, later assignments
overriding earlier ones) are latched into the registers.  `trigger` is
the value of the trigger input sampled at this edge. -/
def shotStep (duration : Nat) (trigger : Bool) (st : ShotState) : ShotState :=
  -- dff_setup!: self.counter.d.next = self.counter.q.val(); likewise for state
  let counter_d := st.counter
  let state_d := st.state
  -- if self.state.q.val() { self.counter.d.next = self.counter.q.val() + 1; }
  let counter_d := if st.state then (st.counter + 1) % 2 ^ 8 else counter_d
  -- if self.state.q.val() && (self.counter.q.val() == self.duration.val())
  --   { self.state.d.next = false; self.fired.next = true; }
  let state_d := if st.state && (st.counter == duration) then false else state_d
  -- if self.trigger.val() { self.state.d.next = true; self.counter.d.next = 0; }
  let state_d := if trigger then true else state_d
  let counter_d := if trigger then 0 else counter_d
  { counter := counter_d, state := state_d }

/-- The combinational output `active` after a settle:
`self.active.next = self.state.q.val()`. -/
def shotActiveOut (st : ShotState) : Bool := st.state

/-- The combinational output `fired` after a settle:
`self.fired.next = false`, overridden to `true` exactly when
`self.state.q.val() && (self.counter.q.val() == self.duration.val())`. -/
def shotFiredOut (duration : Nat) (st : ShotState) : Bool :=
  st.state && (st.counter == duration)

/-- The registered state of the shot after clock edge `n`, starting
from the reset state before any edge; `trigger n` is the trigger value
sampled at edge `n`. -/
def shotRun (duration : Nat) (trigger : Nat → Bool) : Nat → ShotState
  | 0 => { counter := 0, state := false }
  | n + 1 => shotStep duration (trigger (n + 1)) (shotRun duration trigger n)

/-- The trigger waveform of the claimed scenario: asserted exactly on
cycle 3. -/
def shotTrigger3 (n : Nat) : Bool := n == 3

/-- Output `active` as observed on cycle `n` of the scenario
(`duration = 5`, trigger on cycle 3). -/
def shotActive (n : Nat) : Bool := shotActiveOut (shotRun 5 shotTrigger3 n)

/-- Output `fired` as observed on cycle `n` of the scenario. -/
def shotFired (n : Nat) : Bool := shotFiredOut 5 (shotRun 5 shotTrigger3 n)

/-! ## Concrete circuits used by the claims -/

/-- The `Broken` doctest circuit of `check_connected.rs`, used here
directly as the top scope: one Input `I` and one Output `O`, `update`
left blank, so `connect_all` claims nothing.  Atom ids are 1 and 2. -/
def brokenUut : BlockTree :=
  .node .other
    (.atom "I" ⟨1, .inputParameter, false⟩
      (.atom "O" ⟨2, .outputParameter, false⟩ .nil))

/-- The same two-signal block wired correctly: `O` is driven. -/
def fineUut : BlockTree :=
  .node .other
    (.atom "I" ⟨1, .inputParameter, false⟩
      (.atom "O" ⟨2, .outputParameter, true⟩ .nil))

/-- The IR of the `Circle` doctest of `check_logic_loops.rs`:
`self.loc.next = self.out.val(); self.out.next = self.loc.val();`. -/
def circleCode : VerilogBlock :=
  [ .assignment (.signal "loc$next") (.signal "out"),
    .assignment (.signal "out$next") (.signal "loc") ]

/-- The `Circle` block: input `in1`, local `loc`, output `out`, with
the combinational loop `loc.next = out.val(); out.next = loc.val()`. -/
def circleUut : BlockTree :=
  .node (.combinatorial circleCode)
    (.atom "in1" ⟨1, .inputParameter, false⟩
      (.atom "loc" ⟨2, .localSignal, true⟩
        (.atom "out" ⟨3, .outputParameter, true⟩ .nil)))

/-- A write-before-read block: `loc.next = 0; out.next = loc.val()`.
The read of `loc` happens after its write, a permitted local override. -/
def wbrUut : BlockTree :=
  .node
    (.combinatorial
      [ .assignment (.signal "loc$next") (.literal 0),
        .assignment (.signal "out$next") (.signal "loc") ])
    (.atom "loc" ⟨1, .localSignal, true⟩
      (.atom "out" ⟨2, .outputParameter, true⟩ .nil))

/-- The IR `out.next = in1.val()`: the Input `in1` is read and never
written inside the block. -/
def inputReadCode : VerilogBlock :=
  [ .assignment (.signal "out$next") (.signal "in1") ]

/-- A combinational block whose code reads the Input `in1` before (in
fact, without) writing it. -/
def inputReadUut : BlockTree :=
  .node (.combinatorial inputReadCode)
    (.atom "in1" ⟨1, .inputParameter, false⟩
      (.atom "out" ⟨2, .outputParameter, true⟩ .nil))

/-- A block reading a child block's signal (`sub$sig`) before writing
it; the signal `sig` belongs to the sub-block `sub`, not to `uut`. -/
def childReadUut : BlockTree :=
  .node
    (.combinatorial [ .assignment (.signal "out$next") (.signal "sub$sig") ])
    (.sub "sub" (.node .other (.atom "sig" ⟨1, .localSignal, true⟩ .nil))
      (.atom "out" ⟨2, .outputParameter, true⟩ .nil))

/-! ## Mirrored recursions for the probe walks

The two checkers are defined through the generic `accept` traversal;
for the theorems their effect is mirrored by direct structural
recursions on the tree, proved equal to the probe runs below. -/

/-- One atom's contribution to the connectivity failures, given the
scope path and namespace in force at the atom. -/
def ccAtomFailure (path ns : List String) (name : String)
    (signal : AtomInfo) : List (Nat × PathedName) :=
  let is_top_scope := dotted path == "uut"
  let signal_is_input :=
    [AtomKind.inputParameter, AtomKind.inOutParameter].contains signal.kind
  if !(signal.connected || (signal_is_input && is_top_scope)) then
    [(signal.id,
      { path := dotted path
        name := if ns.isEmpty then name else dotted ns ++ "$" ++ name })]
  else
    []

mutual
/-- Failures contributed by accepting `t` under `name` below `path`,
together with the namespace path left behind (entering a scope resets
the namespace and leaving one does not restore it, exactly as the
probe behaves). -/
def ccRunT (path : List String) (name : String) :
    BlockTree → List String × List (Nat × PathedName)
  | .node _ fields => ccRunF (path ++ [name]) [] fields

/-- Failures contributed by a field list at `path` with namespace `ns`,
together with the namespace left behind. -/
def ccRunF (path : List String) (ns : List String) :
    Fields → List String × List (Nat × PathedName)
  | .nil => (ns, [])
  | .atom n i rest =>
      let tail := ccRunF path ns rest
      (tail.1, ccAtomFailure path ns n i ++ tail.2)
  | .sub n t rest =>
      let here := ccRunT path n t
      let tail := ccRunF path here.1 rest
      (tail.1, here.2 ++ tail.2)
  | .ns n inner rest =>
      let here := ccRunF path (ns ++ [n]) inner
      let tail := ccRunF path here.1.dropLast rest
      (tail.1, here.2 ++ tail.2)
end

mutual
/-- The claim's connectedness condition, stated in its own words:
walking the tree, every atom is either connected or is an Input/InOut
parameter of the top-level scope (`isTop` records whether the scope
being walked is the top-level one). -/
def ccAllOkT (isTop : Bool) : BlockTree → Bool
  | .node _ fields => ccAllOkF isTop fields

def ccAllOkF (isTop : Bool) : Fields → Bool
  | .nil => true
  | .atom _ i rest =>
      (i.connected ||
        ([AtomKind.inputParameter, AtomKind.inOutParameter].contains i.kind
          && isTop)) && ccAllOkF isTop rest
  | .sub _ t rest => ccAllOkT false t && ccAllOkF isTop rest
  | .ns _ inner rest => ccAllOkF isTop inner && ccAllOkF isTop rest
end

/-- One atom's effect on the innermost name set, as in
`LocalVars::visit_atom`: Local/Output names are inserted, everything
else is ignored. -/
def lvAtomInsert (top : List String) (n : String) (i : AtomInfo) : List String :=
  match i.kind with
  | .localSignal | .outputParameter =>
      if top.contains n then top else n :: top
  | _ => top

/-- The direct Local/Output atom names of a field list, accumulated
into `top` exactly as `LocalVars::visit_atom` fills the innermost name
set: sub-blocks and namespaces keep their own sets, so their atoms do
not land here. -/
def lvInsertAtoms (top : List String) : Fields → List String
  | .nil => top
  | .atom n i rest => lvInsertAtoms (lvAtomInsert top n i) rest
  | .sub _ _ rest => lvInsertAtoms top rest
  | .ns _ _ rest => lvInsertAtoms top rest

mutual
/-- Loop entries contributed by accepting `t` under `name` below
`path`: first the entries of all nested scopes, then this scope's own
`update_loops` contribution — its loop candidates filtered to the
names of its direct Local/Output atoms, pathed with its dotted path. -/
def llRunT (path : List String) (name : String) : BlockTree → List PathedName
  | .node hdl fields =>
      llRunF (path ++ [name]) fields ++
        ((get_logic_loop_candidates (.node hdl fields)).filter
          (fun c => (lvInsertAtoms [] fields).contains c)).map
          (fun c => { path := dotted (path ++ [name]), name := c })

/-- Loop entries contributed by the sub-blocks reachable from a field
list at `path` (namespaces extend the path; atoms contribute none). -/
def llRunF (path : List String) : Fields → List PathedName
  | .nil => []
  | .atom _ _ rest => llRunF path rest
  | .sub n t rest => llRunT path n t ++ llRunF path rest
  | .ns n inner rest => llRunF (path ++ [n]) inner ++ llRunF path rest
end

/-- The loop entries reported by a checker outcome. -/
def llResultLoops : Except CheckError Unit → List PathedName
  | .error (.logicLoops l) => l
  | _ => []

/-- Whether the field list declares a direct atom named `n` of kind
`LocalSignal` or `OutputParameter` (an atom "of the very scope"). -/
def hasDirectLocalOutput (n : String) : Fields → Bool
  | .nil => false
  | .atom m i rest =>
      (m == n &&
        (i.kind == AtomKind.localSignal || i.kind == AtomKind.outputParameter))
        || hasDirectLocalOutput n rest
  | .sub _ _ rest => hasDirectLocalOutput n rest
  | .ns _ _ rest => hasDirectLocalOutput n rest

/-- All (stripped) signal names occurring in an expression. -/
def exprSignals : VerilogExpression → List String
  | .signal c => [stripNext c]
  | .literal _ => []
  | .binop l r => exprSignals l ++ exprSignals r

mutual
/-- The claim's notion, in its own words, of "`n` is read before being
written within the block's code": scanning the statements in order
with the set of names written so far, some read of `n` (right-hand
sides, slice offsets and replacements, if-conditions) occurs while `n`
is not yet written.  Returns the verdict and the updated written set. -/
def specRBWStmt (n : String) (written : List String) :
    VerilogStatement → Bool × List String
  | .assignment l r =>
      ((exprSignals r).contains n && !written.contains n,
        written ++ exprSignals l)
  | .sliceAssignment base _ offset replacement =>
      ((exprSignals offset ++ exprSignals replacement).contains n
          && !written.contains n,
        written ++ exprSignals base)
  | .conditional cond thenB elseB =>
      let hitC := (exprSignals cond).contains n && !written.contains n
      let inThen := specRBWList n written thenB
      let inElse := specRBWList n inThen.2 elseB
      (hitC || inThen.1 || inElse.1, inElse.2)

def specRBWList (n : String) (written : List String) :
    List VerilogStatement → Bool × List String
  | [] => (false, written)
  | s :: rest =>
      let here := specRBWStmt n written s
      let tail := specRBWList n here.2 rest
      (here.1 || tail.1, tail.2)
end

/-- "`n` is read before being written" in a statement list, starting
from an empty written set. -/
def specReadBeforeWrite (n : String) (code : VerilogBlock) : Bool :=
  (specRBWList n [] code).1

/-! ## Theorems: the `Signal` state machine -/

/-- C3: for a clock signal and any settle iteration (one `update_all`,
possibly preceded by a write to `next`), `pos_edge()` is true after the
iteration exactly when the iteration commits a transition of `val`
from `false` to `true` (i.e. `val` was `false` and the staged `next`
was `true`, so the commit leaves `val = true` with `prev = false`);
`neg_edge()` is the symmetric 1-to-0 case. -/
theorem claim_C3_edge_detection (s : Signal Clock) :
    (s.update_all.pos_edge = true ↔ s.val = false ∧ s.next = true)
    ∧ (s.update_all.neg_edge = true ↔ s.val = true ∧ s.next = false) := by
  rcases s with ⟨next, val, prev, changed, claimed, id⟩
  cases val <;> cases next <;>
    simp [Signal.update_all, Signal.pos_edge, Signal.neg_edge]

/-- C3 witness: a clock with `val = false`, staged `next = true`
exhibits a positive edge after the settle iteration. -/
theorem claim_C3_witness :
    (Signal.update_all ⟨true, false, true, false, false, 0⟩ : Signal Clock).pos_edge
      = true :=
  (claim_C3_edge_detection ⟨true, false, true, false, false, 0⟩).1.mpr ⟨rfl, rfl⟩

/-- C4 counterexample: for the signal with `val = false`, `next = true`,
one `update_all` ends with `changed = true` and yet `val = next`, so
"`changed` is true iff `val != next` at the end of the iteration" is
false at this input. -/
theorem claim_C4_counterexample :
    (Signal.update_all ⟨true, false, false, false, false, 0⟩ : Signal Bool).changed
        = true
    ∧ (Signal.update_all ⟨true, false, false, false, false, 0⟩ : Signal Bool).val
        = (Signal.update_all ⟨true, false, false, false, false, 0⟩ : Signal Bool).next :=
  ⟨rfl, rfl⟩

/-- C4 (amended): at the end of a settle iteration `changed` is true
iff `val` differed from `next` at the start of the iteration (iff the
iteration committed a new value); at the end of the iteration `val`
always equals the staged `next`. -/
theorem claim_C4_changed_flag (T : Type) [DecidableEq T] (s : Signal T) :
    s.update_all.changed = decide (s.val ≠ s.next)
    ∧ s.update_all.val = s.next := by
  by_cases h : s.val = s.next <;> simp [Signal.update_all, h]

/-- C4 witness: the amended statement evaluated on a concrete signal. -/
theorem claim_C4_witness :
    (Signal.update_all ⟨true, false, false, false, false, 0⟩ : Signal Bool).changed
        = decide ((false : Bool) ≠ true) :=
  (claim_C4_changed_flag Bool ⟨true, false, false, false, false, 0⟩).1

/-- C9: immediately after `update_all` returns, `val = next`; hence a
second consecutive `update_all` with no intervening write to `next`
sets `changed` to `false` and leaves `val`, `prev` and `next`
unchanged (a fixed point in at most one extra iteration). -/
theorem claim_C9_fixed_point (T : Type) [DecidableEq T] (s : Signal T) :
    s.update_all.val = s.update_all.next
    ∧ s.update_all.update_all.changed = false
    ∧ s.update_all.update_all.val = s.update_all.val
    ∧ s.update_all.update_all.prev = s.update_all.prev
    ∧ s.update_all.update_all.next = s.update_all.next := by
  by_cases h : s.val = s.next <;> simp [Signal.update_all, h]

/-- C9 witness: the fixed point reached from a concrete signal. -/
theorem claim_C9_witness :
    (Signal.update_all ⟨true, false, false, false, false, 3⟩ : Signal Bool).val
      = (Signal.update_all ⟨true, false, false, false, false, 3⟩ : Signal Bool).next :=
  (claim_C9_fixed_point Bool ⟨true, false, false, false, false, 3⟩).1

/-- C8: `new_with_default(init)` starts with `val = prev = init`, with
the staged `next` equal to the type's default (not `init`), and with
`changed` already `true`; consequently, when `init` differs from the
default, the first `update_all` with no intervening write to `next`
replaces `val = init` by the default value (and records `prev = init`). -/
theorem claim_C8_new_with_default (T : Type) [Inhabited T] [DecidableEq T]
    (id : Nat) (init : T) :
    (Signal.new_with_default id init).val = init
    ∧ (Signal.new_with_default id init).prev = init
    ∧ (Signal.new_with_default id init).next = (default : T)
    ∧ (Signal.new_with_default id init).changed = true
    ∧ (init ≠ (default : T) →
        (Signal.new_with_default id init).update_all.val = (default : T)
        ∧ (Signal.new_with_default id init).update_all.prev = init) := by
  refine ⟨rfl, rfl, rfl, rfl, fun h => ?_⟩
  simp [Signal.new_with_default, Signal.update_all, h]

/-- C8 witness: with `T = Bool`, `init = true` differs from the
default `false`, and the first `update_all` drops `val` to `false`. -/
theorem claim_C8_witness :
    (Signal.new_with_default 7 true).val = true
    ∧ (Signal.new_with_default 7 true).update_all.val = (default : Bool) :=
  ⟨(claim_C8_new_with_default Bool 7 true).1,
    ((claim_C8_new_with_default Bool 7 true).2.2.2.2 (by decide)).1⟩

/-- C5 counterexample: a one-signal graph.  The first `connect_all`
claims the signal; the second `connect_all` does not leave the graph
in the same state — it hits `assert!(!self.claimed)` and aborts
(modelled `none`), so connection is not idempotent as claimed. -/
theorem claim_C5_counterexample :
    connect_all_sigs [(Signal.mkDefault 1 : Signal Bool)]
      = some [{ Signal.mkDefault 1 with claimed := true }]
    ∧ connect_all_sigs [({ Signal.mkDefault 1 with claimed := true } : Signal Bool)]
      = none :=
  ⟨rfl, rfl⟩

/-- C5 (amended): on a graph of driven signals none of which is yet
claimed, `connect_all` sets every `claimed` flag from `false` to
`true` (exactly once each, leaving every other field untouched); but a
repeated `connect` on an already-claimed signal does not leave the
state unchanged — it fails the `assert!` and aborts, so a second
`connect_all` on a non-empty graph aborts instead of being a no-op. -/
theorem claim_C5_connect_once (T : Type) [DecidableEq T] :
    (∀ s : Signal T, s.claimed = false →
      s.connect = some { s with claimed := true }
      ∧ Signal.connect { s with claimed := true } = none)
    ∧ (∀ g : List (Signal T), (∀ s ∈ g, s.claimed = false) →
        connect_all_sigs g = some (g.map fun s => { s with claimed := true }))
    ∧ (∀ g : List (Signal T), g ≠ [] → (∀ s ∈ g, s.claimed = true) →
        connect_all_sigs g = none) := by
  refine ⟨fun s h => ⟨by simp [Signal.connect, h], by simp [Signal.connect]⟩, ?_, ?_⟩
  · intro g
    induction g with
    | nil => intro _; rfl
    | cons s rest ih =>
        intro h
        have hs : s.claimed = false := h s (by simp)
        have hr := ih fun x hx => h x (by simp [hx])
        simp [connect_all_sigs, Signal.connect, hs, hr]
  · intro g hne h
    cases g with
    | nil => exact absurd rfl hne
    | cons s rest =>
        have hs : s.claimed = true := h s (by simp)
        simp [connect_all_sigs, Signal.connect, hs]

/-- C5 witness: the amended statement on a concrete one-signal graph. -/
theorem claim_C5_witness :
    connect_all_sigs [(Signal.mkDefault 4 : Signal Bool)]
      = some [{ Signal.mkDefault 4 with claimed := true }] :=
  (claim_C5_connect_once Bool).2.1 [Signal.mkDefault 4] (by simp [Signal.mkDefault])

/-- C7 counterexample: `Signal::connect` on an already-claimed signal
does not return any value — the `assert!(!self.claimed)` terminates
execution (a panic, modelled `none`), contradicting "reported as an
error value rather than terminating execution": the function has no
error-value channel at all (`fn connect(&mut self)` returns nothing). -/
theorem claim_C7_counterexample :
    Signal.connect ({ Signal.mkDefault 2 with claimed := true } : Signal Bool)
      = none :=
  rfl

/-- C7 (amended): attaching a driver to an already-driven signal
terminates execution through the failed assertion instead of being
reported as an error value; only a first `connect` on an unclaimed
signal returns normally (with the signal claimed). -/
theorem claim_C7_assert_aborts (T : Type) (s : Signal T) :
    (s.claimed = true → s.connect = none)
    ∧ (s.claimed = false → s.connect = some { s with claimed := true }) :=
  ⟨fun h => by simp [Signal.connect, h], fun h => by simp [Signal.connect, h]⟩

/-- C7 witness: both branches exercised on concrete signals. -/
theorem claim_C7_witness :
    Signal.connect ({ Signal.mkDefault 5 with claimed := true } : Signal Bool) = none :=
  (claim_C7_assert_aborts Bool { Signal.mkDefault 5 with claimed := true }).1 rfl

/-! ## Theorems: the one-shot timer -/

/-- After cycle 9 of the claimed scenario the shot sits in the idle
state `⟨6, false⟩` forever (no further trigger arrives). -/
theorem shotRun_fixed (k : Nat) :
    shotRun 5 shotTrigger3 (9 + k) = ⟨6, false⟩ := by
  induction k with
  | zero => rfl
  | succ k ih =>
      have ht : shotTrigger3 (9 + k + 1) = false := by
        simp only [shotTrigger3]
        have : 9 + k + 1 ≠ 3 := by omega
        simpa using this
      have : 9 + (k + 1) = (9 + k) + 1 := by omega
      rw [this, shotRun, ih, shotStep, ht]
      rfl

/-- C6: in the scenario `Shot<8>` with `duration = 5`, trigger
asserted on cycle 3: `active` is high on cycles 3 through 7 inclusive,
`fired` is high on exactly cycle 8, and `active` is low on cycle 9. -/
theorem claim_C6_one_shot :
    shotActive 3 = true ∧ shotActive 4 = true ∧ shotActive 5 = true
    ∧ shotActive 6 = true ∧ shotActive 7 = true
    ∧ (∀ n : Nat, shotFired n = (n == 8))
    ∧ shotActive 9 = false := by
  refine ⟨rfl, rfl, rfl, rfl, rfl, fun n => ?_, rfl⟩
  by_cases h : n < 10
  · interval_cases n <;> rfl
  · have h10 : 10 ≤ n := by omega
    obtain ⟨k, rfl⟩ := Nat.exists_eq_add_of_le h10
    have hrun : shotRun 5 shotTrigger3 (10 + k) = ⟨6, false⟩ := by
      have : 10 + k = 9 + (1 + k) := by omega
      rw [this, shotRun_fixed]
    have hne : ((10 + k == 8) : Bool) = false := by
      have : 10 + k ≠ 8 := by omega
      simpa using this
    rw [shotFired, hrun, hne]
    rfl

/-- C6 witness: the `fired` pulse evaluated on cycle 8. -/
theorem claim_C6_witness : shotFired 8 = ((8 : Nat) == 8) :=
  claim_C6_one_shot.2.2.2.2.2.1 8

/-! ## Theorems: the connectivity checker

The probe callbacks of `CheckConnected`, as state transformers. -/

theorem ccProbe_start_scope (name : String) (t : BlockTree) (st : CCState) :
    ccProbe.start_scope name t st = ⟨st.path ++ [name], [], st.failures⟩ := rfl

theorem ccProbe_start_ns (name : String) (st : CCState) :
    ccProbe.start_ns name st = ⟨st.path, st.nspace ++ [name], st.failures⟩ := rfl

theorem ccProbe_end_ns (name : String) (st : CCState) :
    ccProbe.end_ns name st = ⟨st.path, st.nspace.dropLast, st.failures⟩ := rfl

theorem ccProbe_end_scope (name : String) (t : BlockTree) (st : CCState) :
    ccProbe.end_scope name t st = ⟨st.path.dropLast, st.nspace, st.failures⟩ := rfl

/-- Callback `visit_atom` appends exactly the atom's failure contribution. -/
theorem ccProbe_atom (n : String) (i : AtomInfo) (st : CCState) :
    ccProbe.atom n i st =
      ⟨st.path, st.nspace, st.failures ++ ccAtomFailure st.path st.nspace n i⟩ := by
  show ccVisitAtom n i st = _
  simp only [ccVisitAtom, ccAtomFailure]
  split <;> simp

mutual
/-- Accepting a tree runs the `CheckConnected` probe like the mirrored
recursion `ccRunT`: the path is restored, the namespace is what the
subtree leaves behind, and the failures are appended in walk order. -/
theorem ccAccept_tree (name : String) (t : BlockTree) (st : CCState) :
    acceptTree ccProbe name t st =
      ⟨st.path, (ccRunT st.path name t).1,
        st.failures ++ (ccRunT st.path name t).2⟩ :=
  match t with
  | .node hdl fields => by
      simp only [acceptTree]
      rw [ccProbe_start_scope,
        ccAccept_fields fields ⟨st.path ++ [name], [], st.failures⟩,
        ccProbe_end_scope]
      simp [ccRunT, List.dropLast_concat]

theorem ccAccept_fields (fs : Fields) (st : CCState) :
    acceptFields ccProbe st fs =
      ⟨st.path, (ccRunF st.path st.nspace fs).1,
        st.failures ++ (ccRunF st.path st.nspace fs).2⟩ :=
  match fs with
  | .nil => by simp [acceptFields, ccRunF]
  | .atom n i rest => by
      simp only [acceptFields]
      rw [ccProbe_atom,
        ccAccept_fields rest
          ⟨st.path, st.nspace, st.failures ++ ccAtomFailure st.path st.nspace n i⟩]
      simp [ccRunF, List.append_assoc]
  | .sub n t rest => by
      simp only [acceptFields]
      rw [ccAccept_tree n t st,
        ccAccept_fields rest
          ⟨st.path, (ccRunT st.path n t).1,
            st.failures ++ (ccRunT st.path n t).2⟩]
      simp [ccRunF, List.append_assoc]
  | .ns n inner rest => by
      simp only [acceptFields]
      rw [ccProbe_start_ns,
        ccAccept_fields inner ⟨st.path, st.nspace ++ [n], st.failures⟩,
        ccProbe_end_ns,
        ccAccept_fields rest
          ⟨st.path, (ccRunF st.path (st.nspace ++ [n]) inner).1.dropLast,
            st.failures ++ (ccRunF st.path (st.nspace ++ [n]) inner).2⟩]
      simp [ccRunF, List.append_assoc]
end

/-- A dotted path of two or more components contains a dot, so it can
never equal the top-scope path `"uut"`. -/
theorem dotted_ne_uut (x y : String) (rest : List String) :
    dotted (x :: y :: rest) ≠ "uut" := by
  intro h
  have hdot : ('.' : Char) ∈ (dotted (x :: y :: rest)).data := by
    show ('.' : Char) ∈ (x ++ "." ++ dotted (y :: rest)).data
    rw [String.data_append, String.data_append]
    simp
  rw [h] at hdot
  exact absurd hdot (by decide)

/-- The same fact through the boolean comparison used by the source. -/
theorem dotted_beq_uut (x y : String) (rest : List String) :
    (dotted (x :: y :: rest) == "uut") = false :=
  beq_eq_false_iff_ne.mpr (dotted_ne_uut x y rest)

/-- An atom contributes no failure exactly when it is connected or is
an Input/InOut parameter of the top-level scope. -/
theorem ccAtomFailure_nil (path ns : List String) (n : String) (i : AtomInfo) :
    ccAtomFailure path ns n i = [] ↔
      (i.connected ||
        ([AtomKind.inputParameter, AtomKind.inOutParameter].contains i.kind
          && (dotted path == "uut"))) = true := by
  cases hcon : i.connected <;> cases hk : i.kind <;>
    by_cases htop : dotted path = "uut" <;>
      simp [ccAtomFailure, hcon, hk, htop]

mutual
/-- The failures collected below `path ++ [name]` vanish exactly when
the claim's connectedness condition holds of the subtree, with "top
scope" meaning that the dotted path of the subtree is `"uut"`. -/
theorem ccRunT_nil (path : List String) (name : String) (t : BlockTree) :
    (ccRunT path name t).2 = []
      ↔ ccAllOkT (dotted (path ++ [name]) == "uut") t = true :=
  match t with
  | .node hdl fields => by
      simp only [ccRunT, ccAllOkT]
      exact ccRunF_nil (path ++ [name]) [] fields (by simp)

theorem ccRunF_nil (path ns : List String) (fs : Fields) (hp : path ≠ []) :
    (ccRunF path ns fs).2 = []
      ↔ ccAllOkF (dotted path == "uut") fs = true :=
  match fs with
  | .nil => by simp [ccRunF, ccAllOkF]
  | .atom n i rest => by
      simp only [ccRunF, ccAllOkF]
      rw [List.append_eq_nil, ccAtomFailure_nil, ccRunF_nil path ns rest hp]
      simp [Bool.and_eq_true]
  | .sub n t rest => by
      obtain ⟨x, path', rfl⟩ : ∃ x path', path = x :: path' := by
        cases path with
        | nil => exact absurd rfl hp
        | cons x p => exact ⟨x, p, rfl⟩
      have hne : (dotted ((x :: path') ++ [n]) == "uut") = false := by
        obtain ⟨y, r, hyr⟩ : ∃ y r, path' ++ [n] = y :: r := by
          cases path' with
          | nil => exact ⟨n, [], rfl⟩
          | cons y p => exact ⟨y, p ++ [n], rfl⟩
        show (dotted (x :: (path' ++ [n])) == "uut") = false
        rw [hyr]
        exact dotted_beq_uut x y r
      simp only [ccRunF, ccAllOkF]
      rw [List.append_eq_nil, ccRunT_nil (x :: path') n t,
        ccRunF_nil (x :: path') (ccRunT (x :: path') n t).1 rest hp, hne]
      simp [Bool.and_eq_true]
  | .ns n inner rest => by
      simp only [ccRunF, ccAllOkF]
      rw [List.append_eq_nil, ccRunF_nil path (ns ++ [n]) inner hp,
        ccRunF_nil path (ccRunF path (ns ++ [n]) inner).1.dropLast rest hp]
      simp [Bool.and_eq_true]
end

/-- C1: `check_connected(uut)` returns `Ok` exactly when, walking the
block tree, every atom is either connected (`claimed == true`) or is
an Input/InOut parameter of the top-level scope; otherwise it returns
`Err(CheckError::OpenSignal(m))` where `m` maps each failing atom's id
to its pathed name (the walk `ccRunT` collects exactly the dotted
scope path and atom name of each failing atom).  In particular, the
`Broken` block — one Input `I`, one Output `O` that is never assigned
— fails with `OpenSignal` naming `uut.O`. -/
theorem claim_C1_check_connected :
    (∀ t : BlockTree, check_connected t = Except.ok () ↔ ccAllOkT true t = true)
    ∧ (∀ t : BlockTree, ccAllOkT true t ≠ true →
        check_connected t
          = Except.error (CheckError.openSignal (ccRunT [] "uut" t).2))
    ∧ check_connected brokenUut
        = Except.error (CheckError.openSignal [(2, ⟨"uut", "O"⟩)]) := by
  have hrun : ∀ t : BlockTree,
      acceptTree ccProbe "uut" t ⟨[], [], []⟩
        = ⟨[], (ccRunT [] "uut" t).1, (ccRunT [] "uut" t).2⟩ := by
    intro t
    rw [ccAccept_tree "uut" t ⟨[], [], []⟩]
    simp
  have hiff : ∀ t : BlockTree,
      (ccRunT [] "uut" t).2 = [] ↔ ccAllOkT true t = true := by
    intro t
    have h := ccRunT_nil [] "uut" t
    simpa using h
  refine ⟨fun t => ?_, fun t h => ?_, rfl⟩
  · rw [check_connected, hrun t]
    simp only []
    by_cases he : (ccRunT [] "uut" t).2 = []
    · simp [he, List.isEmpty_iff, (hiff t).mp he]
    · have : ccAllOkT true t ≠ true := fun hok => he ((hiff t).mpr hok)
      simp [List.isEmpty_iff, he, this]
  · have he : (ccRunT [] "uut" t).2 ≠ [] := fun hnil => h ((hiff t).mp hnil)
    rw [check_connected, hrun t]
    simp [List.isEmpty_iff, he]

/-- C1 witness: the correctly wired two-signal block passes the check. -/
theorem claim_C1_witness : check_connected fineUut = Except.ok () :=
  (claim_C1_check_connected.1 fineUut).mpr (by decide)

/-! ## Theorems: the loop checker -/

theorem lvProbe_start_scope (name : String) (t : BlockTree) (st : LVState) :
    lvProbe.start_scope name t st
      = ⟨st.path ++ [name], [] :: st.names, st.loops⟩ := rfl

theorem lvProbe_start_ns (name : String) (st : LVState) :
    lvProbe.start_ns name st
      = ⟨st.path ++ [name], [] :: st.names, st.loops⟩ := rfl

theorem lvProbe_end_ns (name : String) (st : LVState) :
    lvProbe.end_ns name st = ⟨st.path.dropLast, st.names.tail, st.loops⟩ := rfl

theorem lvProbe_end_scope (name : String) (node : BlockTree) (st : LVState) :
    lvProbe.end_scope name node st =
      ⟨st.path.dropLast, st.names.tail,
        st.loops ++ ((get_logic_loop_candidates node).filter
          (fun c => (st.names.headD []).contains c)).map
          (fun c => ⟨dotted st.path, c⟩)⟩ := rfl

/-- Callback `visit_atom` of `LocalVars` inserts into the innermost name set. -/
theorem lvProbe_atom (n : String) (i : AtomInfo) (path : List String)
    (top : List String) (rest : List (List String)) (loops : List PathedName) :
    lvProbe.atom n i ⟨path, top :: rest, loops⟩
      = ⟨path, lvAtomInsert top n i :: rest, loops⟩ := by
  show lvVisitAtom n i ⟨path, top :: rest, loops⟩
      = ⟨path, lvAtomInsert top n i :: rest, loops⟩
  cases hk : i.kind <;>
    simp only [lvVisitAtom, lvAtomInsert, hk] <;>
    first
    | rfl
    | (split <;> rfl)

mutual
/-- Accepting a tree runs the `LocalVars` probe like the mirrored
recursion `llRunT`: path and name stack are restored and the loop
entries are appended in walk order. -/
theorem llAccept_tree (name : String) (t : BlockTree) (path : List String)
    (stack : List (List String)) (loops : List PathedName) :
    acceptTree lvProbe name t ⟨path, stack, loops⟩ =
      ⟨path, stack, loops ++ llRunT path name t⟩ :=
  match t with
  | .node hdl fields => by
      simp only [acceptTree]
      rw [lvProbe_start_scope,
        llAccept_fields fields (path ++ [name]) [] stack loops,
        lvProbe_end_scope]
      simp [llRunT, List.dropLast_concat, List.append_assoc]

theorem llAccept_fields (fs : Fields) (path : List String) (top : List String)
    (rest : List (List String)) (loops : List PathedName) :
    acceptFields lvProbe ⟨path, top :: rest, loops⟩ fs =
      ⟨path, lvInsertAtoms top fs :: rest, loops ++ llRunF path fs⟩ :=
  match fs with
  | .nil => by simp [acceptFields, lvInsertAtoms, llRunF]
  | .atom n i frest => by
      simp only [acceptFields]
      rw [lvProbe_atom, llAccept_fields frest path (lvAtomInsert top n i) rest loops]
      simp [lvInsertAtoms, llRunF]
  | .sub n t frest => by
      simp only [acceptFields]
      rw [llAccept_tree n t path (top :: rest) loops,
        llAccept_fields frest path top rest (loops ++ llRunT path n t)]
      simp [lvInsertAtoms, llRunF, List.append_assoc]
  | .ns n inner frest => by
      simp only [acceptFields]
      rw [lvProbe_start_ns,
        llAccept_fields inner (path ++ [n]) [] (top :: rest) loops,
        lvProbe_end_ns]
      simp only [List.dropLast_concat, List.tail_cons]
      rw [llAccept_fields frest path top rest (loops ++ llRunF (path ++ [n]) inner)]
      simp [lvInsertAtoms, llRunF, List.append_assoc]
end

/-- C2 counterexample: in the combinational block
`out.next = in1.val()`, the signal `in1` is read before (indeed,
without ever) being written, yet `check_logic_loops` succeeds with no
`LogicLoops` entry at all — the checker only ever flags names that are
Local/Output atoms of the scope, so the claim "reports an entry for
each signal that is read before being written" fails at this input. -/
theorem claim_C2_counterexample :
    specReadBeforeWrite "in1" inputReadCode = true
    ∧ inputReadUut.hdl = Verilog.combinatorial inputReadCode
    ∧ check_logic_loops inputReadUut = Except.ok () :=
  ⟨rfl, rfl, rfl⟩

/-- C2 (amended): `check_logic_loops` reports, for each block whose
behavior is combinational, one entry (the block's dotted path plus the
signal name) per loop candidate — a name read in an assignment before
being written — that names a Local/Output atom declared in that very
scope (this is the walk `llRunT`); write-before-read produces no
candidate, and non-combinational behaviors produce no candidates.  In
particular `loc.next = out.val(); out.next = loc.val()` fails with an
entry naming `uut.out`, and the write-before-read block passes. -/
theorem claim_C2_logic_loops :
    (∀ t : BlockTree,
      check_logic_loops t =
        if (llRunT [] "uut" t).isEmpty then Except.ok ()
        else Except.error (CheckError.logicLoops (llRunT [] "uut" t)))
    ∧ (∀ fields : Fields, get_logic_loop_candidates (.node .other fields) = [])
    ∧ check_logic_loops circleUut
        = Except.error (CheckError.logicLoops [⟨"uut", "out"⟩])
    ∧ check_logic_loops wbrUut = Except.ok () := by
  refine ⟨fun t => ?_, fun fields => rfl, rfl, rfl⟩
  rw [check_logic_loops, llAccept_tree "uut" t [] [] []]
  simp

/-- C2 witness: a non-combinational behavior yields no candidates. -/
theorem claim_C2_witness :
    get_logic_loop_candidates (.node .other Fields.nil) = [] :=
  claim_C2_logic_loops.2.1 Fields.nil

mutual
/-- Every loop entry found below `path ++ [name]` carries the dotted
path of some scope at or below `path ++ [name]`. -/
theorem llRunT_path_ext (path : List String) (name : String) (t : BlockTree) :
    ∀ pn ∈ llRunT path name t,
      ∃ suffix, pn.path = dotted (path ++ [name] ++ suffix) :=
  match t with
  | .node hdl fields => by
      intro pn hpn
      simp only [llRunT] at hpn
      rcases List.mem_append.mp hpn with h | h
      · obtain ⟨n', suffix, hs⟩ := llRunF_path_ext (path ++ [name]) fields pn h
        exact ⟨[n'] ++ suffix, by simpa [List.append_assoc] using hs⟩
      · obtain ⟨c, _, rfl⟩ := List.mem_map.mp h
        exact ⟨[], by simp⟩

theorem llRunF_path_ext (path : List String) (fs : Fields) :
    ∀ pn ∈ llRunF path fs,
      ∃ n' suffix, pn.path = dotted (path ++ [n'] ++ suffix) :=
  match fs with
  | .nil => by intro pn hpn; simp [llRunF] at hpn
  | .atom n i rest => by
      intro pn hpn
      simp only [llRunF] at hpn
      exact llRunF_path_ext path rest pn hpn
  | .sub n t rest => by
      intro pn hpn
      simp only [llRunF] at hpn
      rcases List.mem_append.mp hpn with h | h
      · obtain ⟨suffix, hs⟩ := llRunT_path_ext path n t pn h
        exact ⟨n, suffix, hs⟩
      · exact llRunF_path_ext path rest pn h
  | .ns n inner rest => by
      intro pn hpn
      simp only [llRunF] at hpn
      rcases List.mem_append.mp hpn with h | h
      · obtain ⟨n', suffix, hs⟩ := llRunF_path_ext (path ++ [n]) inner pn h
        exact ⟨n, [n'] ++ suffix, by simpa [List.append_assoc] using hs⟩
      · exact llRunF_path_ext path rest pn h
end

/-- A name in the accumulated innermost set was already there or is a
direct Local/Output atom of the field list. -/
theorem mem_lvInsertAtoms (fs : Fields) : ∀ (top : List String) (n : String),
    (lvInsertAtoms top fs).contains n = true →
    top.contains n = true ∨ hasDirectLocalOutput n fs = true :=
  match fs with
  | .nil => by
      intro top n h
      simp only [lvInsertAtoms] at h
      exact Or.inl h
  | .atom m i rest => by
      intro top n h
      simp only [lvInsertAtoms] at h
      rcases mem_lvInsertAtoms rest (lvAtomInsert top m i) n h with h1 | h1
      · cases hk : i.kind <;> simp only [lvAtomInsert, hk] at h1 <;>
        first
        | exact Or.inl h1
        | (by_cases hc : top.contains m = true
           · rw [if_pos hc] at h1
             exact Or.inl h1
           · rw [if_neg hc] at h1
             rw [List.contains_cons] at h1
             rcases Bool.or_eq_true_iff.mp h1 with h2 | h2
             · right
               have hmn : m = n := (beq_iff_eq.mp h2).symm
               simp [hasDirectLocalOutput, hmn, hk]
             · exact Or.inl h2)
      · right
        simp [hasDirectLocalOutput, h1]
  | .sub m t rest => by
      intro top n h
      simp only [lvInsertAtoms] at h
      rcases mem_lvInsertAtoms rest top n h with h1 | h1
      · exact Or.inl h1
      · right; simp [hasDirectLocalOutput, h1]
  | .ns m inner rest => by
      intro top n h
      simp only [lvInsertAtoms] at h
      rcases mem_lvInsertAtoms rest top n h with h1 | h1
      · exact Or.inl h1
      · right; simp [hasDirectLocalOutput, h1]

/-- C10: `check_logic_loops` flags a read-before-write name at the top
scope only if that name is a Local or Output atom declared in that
very scope: if no direct Local/Output atom of the block is named `n`
— in particular if `n` names an Input or InOut signal, or a signal of
a child block — then no `LogicLoops` entry `⟨"uut", n⟩` is produced,
whatever the block's (combinational) code.  The concrete Input-read
and child-signal-read blocks accordingly pass the check. -/
theorem claim_C10_local_scope_filter :
    (∀ (hdl : Verilog) (fs : Fields) (n : String),
        hasDirectLocalOutput n fs = false →
        (⟨"uut", n⟩ : PathedName)
          ∉ llResultLoops (check_logic_loops (.node hdl fs)))
    ∧ check_logic_loops inputReadUut = Except.ok ()
    ∧ check_logic_loops childReadUut = Except.ok () := by
  refine ⟨fun hdl fs n hno hmem => ?_, rfl, rfl⟩
  have hsub : (⟨"uut", n⟩ : PathedName)
      ∈ llRunT [] "uut" (BlockTree.node hdl fs) := by
    rw [check_logic_loops, llAccept_tree "uut" _ [] [] []] at hmem
    simp only [List.nil_append] at hmem
    by_cases he : (llRunT [] "uut" (BlockTree.node hdl fs)).isEmpty
    · rw [if_pos he] at hmem
      simp [llResultLoops] at hmem
    · rw [if_neg he] at hmem
      simpa [llResultLoops] using hmem
  simp only [llRunT] at hsub
  rcases List.mem_append.mp hsub with h3 | h3
  · obtain ⟨n', suffix, hs⟩ := llRunF_path_ext ([] ++ ["uut"]) fs _ h3
    simp only [List.nil_append] at hs
    exact dotted_ne_uut "uut" n' suffix (by simpa using hs.symm)
  · obtain ⟨c, hc, heq⟩ := List.mem_map.mp h3
    have hcn : c = n := by
      have := congrArg PathedName.name heq
      simpa using this
    have hfil := (List.mem_filter.mp hc).2
    rcases mem_lvInsertAtoms fs [] n (by simpa [hcn] using hfil) with h4 | h4
    · simp at h4
    · rw [h4] at hno
      cases hno

/-- C10 witness: a name that is no Local/Output atom of the scope is
never flagged at the top path. -/
theorem claim_C10_witness :
    (⟨"uut", "x"⟩ : PathedName)
      ∉ llResultLoops (check_logic_loops
          (.node .other (.atom "out" ⟨1, .outputParameter, true⟩ .nil))) :=
  claim_C10_local_scope_filter.1 .other
    (.atom "out" ⟨1, .outputParameter, true⟩ .nil) "x" (by decide)
